import Mathlib

/-!
Verification of the lexical analysis subsystem (`src/lexical/symbols.rs`,
`src/lexical/lexer.rs`): a character trie performing greedy longest-match
recognition of operators, delimiters and keywords, and a pull-based lexer
producing one token per `next_token` call.

Embedding notes:
* the `HashMap<char, SymbolTrie>` of children is embedded as an association
  list with at most one binding per key (`findChild` / `setChild`);
* the Rust character classifiers `is_whitespace`, `is_alphabetic`,
  `is_alphanumeric`, `is_digit(10)` are embedded as Lean's `Char.isWhitespace`,
  `Char.isAlpha`, `Char.isAlphanum`, `Char.isDigit` (the ASCII fragment, which
  is exact on every input considered here);
* the cached `current_char` field of the Rust lexer always equals
  `code.get(position)` (established by `new`, re-established by `advance`);
  it is embedded as the derived function `Lexer.current_char`;
* the `unwrap()` at the start of the string scan is the single potential
  panic of the module; `Lexer.lex_string` returns `none` exactly when that
  `unwrap()` would panic, and `Lexer.next_token` propagates it.
-/

namespace Rujs

/-- The delimiter vocabulary (`DELIMITERS` in `symbols.rs`). -/
def DELIMITERS : List String := ["(", ")", "\x7b", "\x7d", "[", "]", ",", ";", "."]

/-- A trie node (`SymbolTrie` in `symbols.rs`): children keyed by one character,
and a flag marking that the path from the root to this node spells a complete
vocabulary symbol. -/
inductive SymbolTrie : Type where
  | mk : List (Char × SymbolTrie) → Bool → SymbolTrie

/-- The children map of a node. -/
def SymbolTrie.children : SymbolTrie → List (Char × SymbolTrie)
  | .mk cs _ => cs

/-- The complete-symbol flag of a node (`is_last` in the source). -/
def SymbolTrie.is_last : SymbolTrie → Bool
  | .mk _ b => b

/-- Lookup of a child edge (`self.children.get(&ch)`). -/
def findChild (c : Char) : List (Char × SymbolTrie) → Option SymbolTrie
  | [] => none
  | (k, t) :: rest => if k = c then some t else findChild c rest

/-- Store a child under a key, replacing an existing binding
(`self.children.entry(ch).or_insert_with(..)` followed by mutation in place). -/
def setChild (c : Char) (t : SymbolTrie) : List (Char × SymbolTrie) → List (Char × SymbolTrie)
  | [] => [(c, t)]
  | (k, u) :: rest => if k = c then (c, t) :: rest else (k, u) :: setChild c t rest

/-- `SymbolTrie::new_empty`. -/
def SymbolTrie.new_empty : SymbolTrie := .mk [] false

/-- `SymbolTrie::insert`: walk or extend the path spelled by the symbol's
characters and set `is_last` on the final node. -/
def SymbolTrie.insert : SymbolTrie → List Char → SymbolTrie
  | .mk cs _, [] => .mk cs true
  | .mk cs b, c :: rest =>
      .mk (setChild c (((findChild c cs).getD SymbolTrie.new_empty).insert rest) cs) b

/-- `SymbolTrie::new`: insert every vocabulary entry into an empty root. -/
def SymbolTrie.new (symbols : List String) : SymbolTrie :=
  symbols.foldl (fun t s => t.insert s.data) (.mk [] false)

/-- `SymbolTrie::is_boundary`: whitespace, or a single-character delimiter
(the delimiter table is compared through one-character strings, as in the
source). -/
def SymbolTrie.is_boundary (ch : Char) : Bool :=
  ch.isWhitespace || DELIMITERS.contains ch.toString

/-- The boundary test the walk performs after reaching a complete symbol at
absolute index `i`: `i + 1 >= code.len() || is_boundary(code[i + 1])`, phrased
on the input remaining after position `i`. -/
def bheadOk : List Char → Bool
  | [] => true
  | c :: _ => SymbolTrie.is_boundary c

/-- The walk inside `SymbolTrie::match_symbol`: `rest` is the input from
absolute index `i` on, `matched` the characters consumed so far, `last` the
last recorded candidate `(text, end)`. -/
def matchGo (needs_boundary : Bool) :
    SymbolTrie → List Char → Nat → String → Option (String × Nat) → Option (String × Nat)
  | _, [], _, _, last => last
  | node, ch :: rest, i, matched, last =>
    match findChild ch node.children with
    | none => last
    | some child =>
      let matched2 := matched.push ch
      let last2 :=
        if child.is_last then
          if needs_boundary then
            if bheadOk rest then some (matched2, i + 1) else last
          else
            some (matched2, i + 1)
        else last
      matchGo needs_boundary child rest (i + 1) matched2 last2

/-- `SymbolTrie::match_symbol`: longest-prefix match at position `start`. -/
def SymbolTrie.match_symbol (t : SymbolTrie) (code : List Char) (start : Nat)
    (needs_boundary : Bool) : Option (String × Nat) :=
  matchGo needs_boundary t (code.drop start) start "" none

/-- The operator vocabulary (`OPERATORS_TRIE` in `symbols.rs`). -/
def OPERATORS : List String :=
  ["+", "-", "*", "**", "/", "%", "==", "!=", "<", "<=", ">",
   ">=", "&&", "||", "!", "=", "+=", "-=", "*=", "/=", "%=",
   "===", "..."]

/-- The keyword vocabulary (`KEYWORDS_TRIE` in `symbols.rs`). -/
def KEYWORDS : List String :=
  ["let", "const", "var", "if", "else", "for", "while", "do", "break",
   "continue", "return", "function", "true", "false", "null", "undefined",
   "new", "this", "delete", "typeof", "in", "instanceof", "void", "catch",
   "try", "finally", "switch", "case", "default", "throw", "class", "extends",
   "super", "import", "export", "from", "as", "await", "async", "yield"]

/-- The operator matcher singleton. -/
def OPERATORS_TRIE : SymbolTrie := SymbolTrie.new OPERATORS

/-- The delimiter matcher singleton. -/
def DELIMITERS_TRIE : SymbolTrie := SymbolTrie.new DELIMITERS

/-- The keyword matcher singleton. -/
def KEYWORDS_TRIE : SymbolTrie := SymbolTrie.new KEYWORDS

/-- The token type (`Token` in `lexer.rs`). -/
inductive Token : Type where
  | Keyword : String → Token
  | Identifier : String → Token
  | Number : String → Token
  | StringLiteral : String → Token
  | Operator : String → Token
  | Delimiter : String → Token
  | EOF : Token
deriving DecidableEq, Repr

/-- The lexer state: the input character buffer and the cursor.  The cached
`current_char` of the source always equals `code.get(position)` and is embedded
as the derived function `Lexer.current_char`. -/
structure Lexer where
  code : List Char
  position : Nat
deriving DecidableEq, Repr

/-- `Lexer::new`. -/
def Lexer.new (code : List Char) : Lexer := ⟨code, 0⟩

/-- The current character: `code.get(position)`. -/
def Lexer.current_char (st : Lexer) : Option Char := st.code[st.position]?

/-- `Lexer::advance`: move the cursor one character forward. -/
def Lexer.advance (st : Lexer) : Lexer := ⟨st.code, st.position + 1⟩

theorem current_char_lt {st : Lexer} {c : Char} (h : st.current_char = some c) :
    st.position < st.code.length := by
  by_contra hge
  simp [Lexer.current_char, List.getElem?_eq_none (Nat.le_of_not_lt hge)] at h

theorem current_char_none_iff {st : Lexer} :
    st.current_char = none ↔ st.code.length ≤ st.position := by
  simp [Lexer.current_char, List.getElem?_eq_none_iff]

/-- `Lexer::skip_whitespace`: advance over a maximal run of whitespace. -/
def Lexer.skip_whitespace (st : Lexer) : Lexer :=
  match h : st.current_char with
  | some ch => if ch.isWhitespace then st.advance.skip_whitespace else st
  | none => st
termination_by st.code.length - st.position
decreasing_by
  have := current_char_lt h
  simp only [Lexer.advance]
  omega

/-- The loop of `Lexer::lex_number`: collect a maximal run of digits and dots. -/
def lex_number_go (st : Lexer) (value : String) : Token × Lexer :=
  match h : st.current_char with
  | some ch =>
    if ch.isDigit || ch = '.' then lex_number_go st.advance (value.push ch)
    else (Token.Number value, st)
  | none => (Token.Number value, st)
termination_by st.code.length - st.position
decreasing_by
  have := current_char_lt h
  simp only [Lexer.advance]
  omega

/-- `Lexer::lex_number`. -/
def Lexer.lex_number (st : Lexer) : Token × Lexer := lex_number_go st ""

/-- The character class consumed by the identifier/keyword scan:
`ch.is_alphanumeric() || ch == '_' || ch == '$'`. -/
def identChar (ch : Char) : Bool := ch.isAlphanum || ch = '_' || ch = '$'

/-- The loop of `Lexer::lex_identifier_or_keyword`: collect a maximal run of
identifier characters. -/
def lex_ident_go (st : Lexer) (value : String) : String × Lexer :=
  match h : st.current_char with
  | some ch =>
    if identChar ch then lex_ident_go st.advance (value.push ch)
    else (value, st)
  | none => (value, st)
termination_by st.code.length - st.position
decreasing_by
  have := current_char_lt h
  simp only [Lexer.advance]
  omega

/-- `Lexer::lex_identifier_or_keyword`: capture the full run, then classify it
against the keyword trie with `require_boundary = true`. -/
def Lexer.lex_identifier_or_keyword (st : Lexer) : Token × Lexer :=
  let p := lex_ident_go st ""
  if (KEYWORDS_TRIE.match_symbol p.1.data 0 true).isSome then (Token.Keyword p.1, p.2)
  else (Token.Identifier p.1, p.2)

/-- The escape table of the string scan: the character produced for the
character following a backslash. -/
def escape_char (c : Char) : Char :=
  if c = 'n' then '\n'
  else if c = 't' then '\t'
  else if c = '\\' then '\\'
  else if c = '"' then '"'
  else if c = '\'' then '\''
  else c

/-- The loop of `Lexer::lex_string`: consume until the closing quote or end of
input, decoding escapes. -/
def lex_string_go (quote : Char) (st : Lexer) (value : String) : Token × Lexer :=
  match h : st.current_char with
  | none => (Token.StringLiteral value, st)
  | some ch =>
    if ch = quote then (Token.StringLiteral value, st.advance)
    else if ch = '\\' then
      match st.advance.current_char with
      | some esc => lex_string_go quote st.advance.advance (value.push (escape_char esc))
      | none => lex_string_go quote st.advance value
    else lex_string_go quote st.advance (value.push ch)
termination_by st.code.length - st.position
decreasing_by
  all_goals have := current_char_lt h
  all_goals simp only [Lexer.advance]
  all_goals omega

/-- `Lexer::lex_string`.  The source starts with
`self.current_char.unwrap()`; `none` models that panic (it is proved
unreachable from `next_token`). -/
def Lexer.lex_string (st : Lexer) : Option (Token × Lexer) :=
  match st.current_char with
  | none => none
  | some quote => some (lex_string_go quote st.advance "")

/-- The `for _i in self.position..end { self.advance(); }` loop: advance `n`
times. -/
def advance_times (st : Lexer) : Nat → Lexer
  | 0 => st
  | n + 1 => advance_times st.advance n

/-- `Lexer::lex_operator_or_delimiter`: the operator matcher first, the
delimiter matcher only if it fails, both without boundary requirement. -/
def Lexer.lex_operator_or_delimiter (st : Lexer) : Option (Token × Lexer) :=
  match OPERATORS_TRIE.match_symbol st.code st.position false with
  | some (symbol, e) => some (Token.Operator symbol, advance_times st (e - st.position))
  | none =>
    match DELIMITERS_TRIE.match_symbol st.code st.position false with
    | some (symbol, e) => some (Token.Delimiter symbol, advance_times st (e - st.position))
    | none => none

theorem skip_whitespace_position_le (st : Lexer) :
    st.position ≤ st.skip_whitespace.position := by
  rw [Lexer.skip_whitespace]
  split
  · split
    · have h2 := skip_whitespace_position_le st.advance
      simp only [Lexer.advance] at h2 ⊢
      omega
    · exact Nat.le_refl _
  · exact Nat.le_refl _
termination_by st.code.length - st.position
decreasing_by
  rename_i h _
  have := current_char_lt h
  simp only [Lexer.advance]
  omega

theorem skip_whitespace_code (st : Lexer) : st.skip_whitespace.code = st.code := by
  rw [Lexer.skip_whitespace]
  split
  · split
    · have h2 := skip_whitespace_code st.advance
      simp only [Lexer.advance] at h2 ⊢
      exact h2
    · rfl
  · rfl
termination_by st.code.length - st.position
decreasing_by
  rename_i h _
  have := current_char_lt h
  simp only [Lexer.advance]
  omega

theorem skip_whitespace_eq_of_ws {st : Lexer} {c : Char} (h : st.current_char = some c)
    (hw : c.isWhitespace = true) : st.skip_whitespace = st.advance.skip_whitespace := by
  rw [Lexer.skip_whitespace]
  split
  · rename_i ch hch
    rw [h] at hch
    cases hch
    rw [if_pos hw]
  · rename_i hch
    rw [h] at hch
    cases hch

/-- `Lexer::next_token`: the main dispatch loop.  Returns `none` exactly when
the `unwrap()` inside the string scan would panic (proved unreachable). -/
def Lexer.next_token (st : Lexer) : Option (Token × Lexer) :=
  match h : st.current_char with
  | none => some (Token.EOF, st)
  | some ch =>
    if hw : ch.isWhitespace then
      st.skip_whitespace.next_token
    else if ch.isAlpha || ch = '_' || ch = '$' then
      some st.lex_identifier_or_keyword
    else if ch.isDigit then
      some st.lex_number
    else if ch = '"' || ch = '\'' then
      st.lex_string
    else
      match st.lex_operator_or_delimiter with
      | some r => some r
      | none => st.advance.next_token
termination_by st.code.length - st.position
decreasing_by
  · have h1 := current_char_lt h
    have h2 := skip_whitespace_position_le st.advance
    have h3 := skip_whitespace_code st.advance
    rw [skip_whitespace_eq_of_ws h hw]
    simp only [Lexer.advance] at h2 h3 ⊢
    rw [h3]
    omega
  · have := current_char_lt h
    simp only [Lexer.advance]
    omega

/-- Pull `n` tokens by repeated `next_token` calls; `none` if any call would
panic. -/
def run_tokens : Nat → Lexer → Option (List Token)
  | 0, _ => some []
  | n + 1, st =>
    match st.next_token with
    | none => none
    | some (t, st2) => (run_tokens n st2).map (fun ts => t :: ts)

/-! ### Small facts about the state and the buffer -/

theorem push_data (s : String) (c : Char) : (s.push c).data = s.data ++ [c] := rfl

theorem string_eta (s : String) : (⟨s.data⟩ : String) = s := rfl

theorem drop_cons_inv {code : List Char} {pos : Nat} {c : Char} {rest : List Char}
    (h : code.drop pos = c :: rest) : code[pos]? = some c ∧ code.drop (pos + 1) = rest := by
  constructor
  · rw [← List.head?_drop, h, List.head?_cons]
  · have h2 : code.drop (pos + 1) = (code.drop pos).drop 1 := by
      rw [List.drop_drop, Nat.add_comm]
    rw [h2, h, List.drop_succ_cons, List.drop_zero]

theorem drop_nil_inv {code : List Char} {pos : Nat} (h : code.drop pos = []) :
    code[pos]? = none := by
  rw [← List.head?_drop, h, List.head?_nil]

/-! ### Structural evaluation models

`next_token` and the scanner loops are defined by well-founded recursion on
`code.length - position`, mirroring the source's `while` loops; well-founded
definitions do not reduce definitionally, so for evaluation and induction we
characterize each loop by a structurally recursive function over the input
remaining after the cursor, and prove the two agree. -/

/-- Classification step at the end of the identifier/keyword scan. -/
def identToken (value : String) : Token :=
  if (KEYWORDS_TRIE.match_symbol value.data 0 true).isSome then Token.Keyword value
  else Token.Identifier value

/-- Modelled from the spec: the string scan consumes characters after the
opening quote until the same quote character (consumed) or end of input (no
error), a backslash decoding the following character through the escape table
(and being consumed silently at end of input); it returns the decoded value
and the number of characters consumed after the opening quote. -/
def scanStr (q : Char) : List Char → List Char × Nat
  | [] => ([], 0)
  | c :: rest =>
    if c = q then ([], 1)
    else if c = '\\' then
      match rest with
      | [] => ([], 1)
      | e :: rest2 =>
        let p := scanStr q rest2
        (escape_char e :: p.1, p.2 + 2)
    else
      let p := scanStr q rest
      (c :: p.1, p.2 + 1)

/-- Structural model of the `next_token` loop: `rest` is the input remaining
at cursor `pos`. -/
def ntGo (code : List Char) : Nat → List Char → Option (Token × Lexer)
  | pos, [] => some (Token.EOF, ⟨code, pos⟩)
  | pos, c :: rest =>
    if c.isWhitespace then ntGo code (pos + 1) rest
    else if c.isAlpha || c = '_' || c = '$' then
      some (identToken ⟨(c :: rest).takeWhile identChar⟩,
        ⟨code, pos + ((c :: rest).takeWhile identChar).length⟩)
    else if c.isDigit then
      some (Token.Number ⟨(c :: rest).takeWhile (fun x => x.isDigit || x = '.')⟩,
        ⟨code, pos + ((c :: rest).takeWhile (fun x => x.isDigit || x = '.')).length⟩)
    else if c = '"' || c = '\'' then
      some (Token.StringLiteral ⟨(scanStr c rest).1⟩, ⟨code, pos + 1 + (scanStr c rest).2⟩)
    else
      match OPERATORS_TRIE.match_symbol code pos false with
      | some (symbol, e) => some (Token.Operator symbol, ⟨code, pos + (e - pos)⟩)
      | none =>
        match DELIMITERS_TRIE.match_symbol code pos false with
        | some (symbol, e) => some (Token.Delimiter symbol, ⟨code, pos + (e - pos)⟩)
        | none => ntGo code (pos + 1) rest

theorem advance_times_spec (st : Lexer) (n : Nat) :
    advance_times st n = ⟨st.code, st.position + n⟩ := by
  induction n generalizing st with
  | zero => rfl
  | succ k ih =>
    rw [advance_times, ih]
    simp only [Lexer.advance]
    congr 1
    omega

theorem lex_ident_go_spec (code : List Char) :
    ∀ (rest : List Char) (pos : Nat) (value : String), code.drop pos = rest →
      lex_ident_go ⟨code, pos⟩ value =
        (⟨value.data ++ rest.takeWhile identChar⟩,
         ⟨code, pos + (rest.takeWhile identChar).length⟩) := by
  intro rest
  induction rest with
  | nil =>
    intro pos value h
    rw [lex_ident_go]
    have hc : Lexer.current_char ⟨code, pos⟩ = none := drop_nil_inv h
    split
    · rename_i ch hch
      rw [hc] at hch; cases hch
    · simp [List.takeWhile_nil, string_eta]
  | cons c rest ih =>
    intro pos value h
    obtain ⟨hc, hrest⟩ := drop_cons_inv h
    rw [lex_ident_go]
    split
    · rename_i ch hch
      simp only [Lexer.current_char] at hch
      rw [hc] at hch
      cases hch
      by_cases hid : identChar c
      · rw [if_pos hid]
        have := ih (pos + 1) (value.push c) hrest
        simp only [Lexer.advance]
        rw [this, List.takeWhile_cons_of_pos hid]
        simp only [push_data, List.append_assoc, List.singleton_append, List.length_cons,
          Prod.mk.injEq, Lexer.mk.injEq, eq_self_iff_true, true_and, and_true]
        omega
      · rw [if_neg hid, List.takeWhile_cons_of_neg (by simpa using hid)]
        simp [string_eta]
    · rename_i hch
      simp only [Lexer.current_char] at hch
      rw [hc] at hch
      cases hch

theorem lex_number_go_spec (code : List Char) :
    ∀ (rest : List Char) (pos : Nat) (value : String), code.drop pos = rest →
      lex_number_go ⟨code, pos⟩ value =
        (Token.Number ⟨value.data ++ rest.takeWhile (fun x => x.isDigit || x = '.')⟩,
         ⟨code, pos + (rest.takeWhile (fun x => x.isDigit || x = '.')).length⟩) := by
  intro rest
  induction rest with
  | nil =>
    intro pos value h
    rw [lex_number_go]
    have hc : Lexer.current_char ⟨code, pos⟩ = none := drop_nil_inv h
    split
    · rename_i ch hch
      rw [hc] at hch; cases hch
    · simp [List.takeWhile_nil, string_eta]
  | cons c rest ih =>
    intro pos value h
    obtain ⟨hc, hrest⟩ := drop_cons_inv h
    rw [lex_number_go]
    split
    · rename_i ch hch
      simp only [Lexer.current_char] at hch
      rw [hc] at hch
      cases hch
      by_cases hd : (c.isDigit || c = '.') = true
      · rw [if_pos hd]
        have := ih (pos + 1) (value.push c) hrest
        simp only [Lexer.advance]
        rw [this]
        simp only [List.takeWhile_cons, hd, if_true, push_data, List.append_assoc,
          List.singleton_append, List.length_cons, Prod.mk.injEq, Lexer.mk.injEq,
          Token.Number.injEq, eq_self_iff_true, true_and, and_true]
        omega
      · rw [if_neg hd]
        simp only [List.takeWhile_cons]
        rw [if_neg (by simpa using hd)]
        simp [string_eta]
    · rename_i hch
      simp only [Lexer.current_char] at hch
      rw [hc] at hch
      cases hch

theorem data_empty : ("" : String).data = [] := rfl

theorem push_eq (s : String) (c : Char) : s.push c = ⟨s.data ++ [c]⟩ := rfl

theorem lex_string_go_spec (code : List Char) (q : Char) (rest : List Char) (pos : Nat)
    (value : String) (h : code.drop pos = rest) :
    lex_string_go q ⟨code, pos⟩ value =
      (Token.StringLiteral ⟨value.data ++ (scanStr q rest).1⟩,
       ⟨code, pos + (scanStr q rest).2⟩) := by
  match rest with
  | [] =>
    have hc : Lexer.current_char ⟨code, pos⟩ = none := drop_nil_inv h
    rw [lex_string_go]
    split
    · simp [scanStr, string_eta]
    · rename_i ch hch
      rw [hc] at hch
      cases hch
  | c :: rest2 =>
    obtain ⟨hc, hrest⟩ := drop_cons_inv h
    rw [lex_string_go]
    split
    · rename_i hch
      simp only [Lexer.current_char] at hch
      rw [hc] at hch
      cases hch
    · rename_i ch hch
      simp only [Lexer.current_char] at hch
      rw [hc] at hch
      cases hch
      by_cases hq : c = q
      · rw [if_pos hq]
        unfold scanStr
        rw [if_pos hq]
        simp [Lexer.advance, string_eta]
      · rw [if_neg hq]
        by_cases hb : c = '\\'
        · rw [if_pos hb]
          match hr2 : rest2 with
          | [] =>
            have hc2 : (Lexer.advance ⟨code, pos⟩).current_char = none := by
              simp only [Lexer.advance, Lexer.current_char]
              exact drop_nil_inv hrest
            split
            · rename_i esc hesc
              rw [hc2] at hesc
              cases hesc
            · have h0 := lex_string_go_spec code q [] (pos + 1) value hrest
              simp only [Lexer.advance] at h0 ⊢
              rw [h0]
              unfold scanStr
              rw [if_neg hq, if_pos hb]
              simp [string_eta]
          | e :: rest3 =>
            have hc2 : (Lexer.advance ⟨code, pos⟩).current_char = some e := by
              simp only [Lexer.advance, Lexer.current_char]
              exact (drop_cons_inv hrest).1
            split
            · rename_i esc hesc
              rw [hc2] at hesc
              cases hesc
              have hr3 : code.drop (pos + 1 + 1) = rest3 := (drop_cons_inv hrest).2
              have h0 := lex_string_go_spec code q rest3 (pos + 1 + 1)
                (value.push (escape_char e)) hr3
              simp only [Lexer.advance] at h0 ⊢
              rw [h0]
              conv_rhs => unfold scanStr
              rw [if_neg hq, if_pos hb]
              simp only [push_data, List.append_assoc, List.singleton_append,
                Prod.mk.injEq, Lexer.mk.injEq, Token.StringLiteral.injEq,
                eq_self_iff_true, true_and, and_true]
              omega
            · rename_i hesc
              rw [hc2] at hesc
              cases hesc
        · rw [if_neg hb]
          have h0 := lex_string_go_spec code q rest2 (pos + 1) (value.push c) hrest
          simp only [Lexer.advance] at h0 ⊢
          rw [h0]
          conv_rhs => unfold scanStr
          rw [if_neg hq, if_neg hb]
          simp only [push_data, List.append_assoc, List.singleton_append,
            Prod.mk.injEq, Lexer.mk.injEq, Token.StringLiteral.injEq,
            eq_self_iff_true, true_and, and_true]
          omega
termination_by rest.length

theorem skip_whitespace_none {st : Lexer} (h : st.current_char = none) :
    st.skip_whitespace = st := by
  rw [Lexer.skip_whitespace]
  split
  · rename_i ch hch
    rw [h] at hch
    cases hch
  · rfl

theorem skip_whitespace_not_ws {st : Lexer} {c : Char} (h : st.current_char = some c)
    (hnw : c.isWhitespace = false) : st.skip_whitespace = st := by
  rw [Lexer.skip_whitespace]
  split
  · rename_i ch hch
    rw [h] at hch
    cases hch
    rw [if_neg (by simp [hnw])]
  · rfl

theorem next_token_ws_step {st : Lexer} {c : Char} (h : st.current_char = some c)
    (hw : c.isWhitespace = true) : st.next_token = st.advance.next_token := by
  rw [Lexer.next_token]
  split
  · rename_i hch
    rw [h] at hch
    cases hch
  · rename_i ch hch
    rw [h] at hch
    cases hch
    rw [dif_pos hw, skip_whitespace_eq_of_ws h hw]
    match hc2 : st.advance.current_char with
    | none => rw [skip_whitespace_none hc2]
    | some c2 =>
      by_cases hw2 : c2.isWhitespace
      · conv_rhs => rw [Lexer.next_token]
        split
        · rename_i hch2
          rw [hc2] at hch2
          cases hch2
        · rename_i ch2 hch2
          rw [hc2] at hch2
          cases hch2
          rw [dif_pos hw2]
      · rw [skip_whitespace_not_ws hc2 (by simpa using hw2)]

/-- The bridge: the well-founded `next_token` agrees with the structural model
`ntGo` on the remaining input. -/
theorem next_token_eq_ntGo (code : List Char) :
    ∀ (rest : List Char) (pos : Nat), code.drop pos = rest →
      Lexer.next_token ⟨code, pos⟩ = ntGo code pos rest := by
  intro rest
  induction rest with
  | nil =>
    intro pos h
    have hc : Lexer.current_char ⟨code, pos⟩ = none := drop_nil_inv h
    rw [Lexer.next_token, ntGo]
    split
    · rfl
    · rename_i ch hch
      rw [hc] at hch
      cases hch
  | cons c rest ih =>
    intro pos h
    obtain ⟨hc, hrest⟩ := drop_cons_inv h
    have hcc : Lexer.current_char ⟨code, pos⟩ = some c := hc
    by_cases hw : c.isWhitespace
    · rw [next_token_ws_step hcc hw]
      conv_rhs => unfold ntGo
      rw [if_pos hw]
      have := ih (pos + 1) hrest
      simpa [Lexer.advance] using this
    · rw [Lexer.next_token]
      split
      · rename_i hch
        rw [hcc] at hch
        cases hch
      · rename_i ch hch
        rw [hcc] at hch
        cases hch
        rw [dif_neg hw]
        conv_rhs => unfold ntGo
        rw [if_neg hw]
        by_cases hid : (c.isAlpha || c = '_' || c = '$') = true
        · rw [if_pos hid, if_pos hid]
          simp only [Lexer.lex_identifier_or_keyword]
          rw [lex_ident_go_spec code (c :: rest) pos "" h]
          simp only [data_empty, List.nil_append]
          by_cases hk : (KEYWORDS_TRIE.match_symbol
              (⟨(c :: rest).takeWhile identChar⟩ : String).data 0 true).isSome <;>
            simp [identToken, hk]
        · rw [if_neg hid, if_neg hid]
          by_cases hdg : c.isDigit = true
          · rw [if_pos hdg, if_pos hdg]
            simp only [Lexer.lex_number]
            rw [lex_number_go_spec code (c :: rest) pos "" h]
            simp only [data_empty, List.nil_append]
          · rw [if_neg hdg, if_neg hdg]
            by_cases hqt : (c = '"' || c = '\'') = true
            · rw [if_pos hqt, if_pos hqt]
              simp only [Lexer.lex_string]
              rw [hcc]
              have := lex_string_go_spec code c rest (pos + 1) "" hrest
              simp only [Lexer.advance] at this ⊢
              rw [this]
              simp only [data_empty, List.nil_append]
            · rw [if_neg hqt, if_neg hqt]
              cases hop : OPERATORS_TRIE.match_symbol code pos false with
              | some r =>
                simp only [Lexer.lex_operator_or_delimiter, hop, advance_times_spec]
              | none =>
                cases hdl : DELIMITERS_TRIE.match_symbol code pos false with
                | some r =>
                  simp only [Lexer.lex_operator_or_delimiter, hop, hdl, advance_times_spec]
                | none =>
                  simp only [Lexer.lex_operator_or_delimiter, hop, hdl]
                  have := ih (pos + 1) hrest
                  simpa [Lexer.advance] using this

/-- Structural model of `run_tokens`. -/
def rtModel : Nat → Lexer → Option (List Token)
  | 0, _ => some []
  | n + 1, st =>
    match ntGo st.code st.position (st.code.drop st.position) with
    | none => none
    | some (t, st2) => (rtModel n st2).map (fun ts => t :: ts)

theorem run_tokens_eq : ∀ (n : Nat) (st : Lexer), run_tokens n st = rtModel n st := by
  intro n
  induction n with
  | zero => intro st; rfl
  | succ k ih =>
    intro st
    rw [run_tokens, rtModel]
    have hb : st.next_token = ntGo st.code st.position (st.code.drop st.position) :=
      next_token_eq_ntGo st.code (st.code.drop st.position) st.position rfl
    rw [hb]
    cases ntGo st.code st.position (st.code.drop st.position) with
    | none => rfl
    | some p =>
      cases p
      simp only [ih]

/-! ### The words stored in a trie, and the candidates of a walk -/

/-- A word is stored in the trie when its path exists and ends at a node whose
`is_last` flag is set. -/
def SymbolTrie.containsW : SymbolTrie → List Char → Bool
  | t, [] => t.is_last
  | t, c :: rest =>
    match findChild c t.children with
    | some child => child.containsW rest
    | none => false

/-- The length of the deepest candidate the walk starting at `node` can record
on input `rest` (boundary-checked when `nb` is set). -/
def bestN (nb : Bool) : SymbolTrie → List Char → Option Nat
  | _, [] => none
  | node, c :: rest =>
    match findChild c node.children with
    | none => none
    | some child =>
      match bestN nb child rest with
      | some m => some (m + 1)
      | none => if child.is_last && (!nb || bheadOk rest) then some 1 else none

theorem containsW_nil (t : SymbolTrie) : t.containsW [] = t.is_last := rfl

theorem containsW_cons_of_child {node child : SymbolTrie} {c : Char} {w : List Char}
    (hfc : findChild c node.children = some child) :
    node.containsW (c :: w) = child.containsW w := by
  show (match findChild c node.children with
    | some child => child.containsW w
    | none => false) = child.containsW w
  rw [hfc]

theorem containsW_cons_of_none {node : SymbolTrie} {c : Char} {w : List Char}
    (hfc : findChild c node.children = none) :
    node.containsW (c :: w) = false := by
  show (match findChild c node.children with
    | some child => child.containsW w
    | none => false) = false
  rw [hfc]

theorem bestN_nil (nb : Bool) (node : SymbolTrie) : bestN nb node [] = none := rfl

theorem bestN_cons (nb : Bool) (node : SymbolTrie) (c : Char) (rest : List Char) :
    bestN nb node (c :: rest) =
      match findChild c node.children with
      | none => none
      | some child =>
        match bestN nb child rest with
        | some m => some (m + 1)
        | none => if child.is_last && (!nb || bheadOk rest) then some 1 else none := rfl

/-- The walk accumulates exactly the deepest recordable candidate. -/
theorem matchGo_eq_bestN (nb : Bool) :
    ∀ (rest : List Char) (node : SymbolTrie) (i : Nat) (matched : String)
      (last : Option (String × Nat)),
      matchGo nb node rest i matched last =
        match bestN nb node rest with
        | some n => some (⟨matched.data ++ rest.take n⟩, i + n)
        | none => last := by
  intro rest
  induction rest with
  | nil => intro node i matched last; rfl
  | cons c rest ih =>
    intro node i matched last
    conv_lhs => unfold matchGo
    rw [bestN_cons]
    cases hfc : findChild c node.children with
    | none => simp
    | some child =>
      simp only []
      rw [ih]
      cases hbn : bestN nb child rest with
      | some m =>
        simp only [push_data, List.append_assoc, List.singleton_append,
          List.take_succ_cons, Prod.mk.injEq, Option.some.injEq, eq_self_iff_true, true_and]
        omega
      | none =>
        cases hl : child.is_last <;> cases nb <;> cases hbo : bheadOk rest <;>
          simp [hl, hbo, push_eq, List.take_succ_cons, List.take_zero]

/-- The boundary condition the walk checks after a candidate of length `n` on
remaining input `rest`: input ended, or the next character is a boundary. -/
def bAt (rest : List Char) (n : Nat) : Bool :=
  if h : n < rest.length then SymbolTrie.is_boundary rest[n] else true

/-- A recordable candidate of length `n` for the walk from `node` on `rest`. -/
def candN (nb : Bool) (node : SymbolTrie) (rest : List Char) (n : Nat) : Prop :=
  n ≤ rest.length ∧ node.containsW (rest.take n) = true ∧ (nb = true → bAt rest n = true)

instance (nb : Bool) (node : SymbolTrie) (rest : List Char) (n : Nat) :
    Decidable (candN nb node rest n) := by
  unfold candN
  infer_instance

theorem bAt_zero (rest : List Char) : bAt rest 0 = bheadOk rest := by
  cases rest with
  | nil => rfl
  | cons c rest => simp [bAt, bheadOk]

theorem bAt_cons (c : Char) (rest : List Char) (n : Nat) :
    bAt (c :: rest) (n + 1) = bAt rest n := by
  unfold bAt
  by_cases h : n < rest.length
  · rw [dif_pos (by simpa using Nat.succ_lt_succ h), dif_pos h]
    simp
  · rw [dif_neg (by simpa using fun hh => h (Nat.lt_of_succ_lt_succ hh)), dif_neg h]

theorem candN_cons_succ {nb : Bool} {node child : SymbolTrie} {c : Char} {rest : List Char}
    (hfc : findChild c node.children = some child) (k : Nat) :
    candN nb node (c :: rest) (k + 1) ↔ candN nb child rest k := by
  unfold candN
  rw [List.take_succ_cons, containsW_cons_of_child hfc, bAt_cons]
  simp only [List.length_cons]
  constructor
  · rintro ⟨h1, h2, h3⟩
    exact ⟨by omega, h2, h3⟩
  · rintro ⟨h1, h2, h3⟩
    exact ⟨by omega, h2, h3⟩

/-- Soundness and maximality of `bestN` with respect to the recordable
candidates. -/
theorem bestN_spec (nb : Bool) :
    ∀ (rest : List Char) (node : SymbolTrie),
      (∀ n, bestN nb node rest = some n →
        0 < n ∧ candN nb node rest n ∧ ∀ m, 0 < m → candN nb node rest m → m ≤ n) ∧
      (bestN nb node rest = none → ∀ m, 0 < m → ¬candN nb node rest m) := by
  intro rest
  induction rest with
  | nil =>
    intro node
    constructor
    · intro n hn
      rw [bestN_nil] at hn
      cases hn
    · intro _ m hm hc
      obtain ⟨hlen, -, -⟩ := hc
      simp only [List.length_nil] at hlen
      omega
  | cons c rest ih =>
    intro node
    cases hfc : findChild c node.children with
    | none =>
      have hb : bestN nb node (c :: rest) = none := by rw [bestN_cons, hfc]
      constructor
      · intro n hn
        rw [hb] at hn
        cases hn
      · intro _ m hm hc
        obtain ⟨k, rfl⟩ : ∃ k, m = k + 1 := ⟨m - 1, by omega⟩
        obtain ⟨hlen, hcw, -⟩ := hc
        rw [List.take_succ_cons, containsW_cons_of_none hfc] at hcw
        cases hcw
    | some child =>
      obtain ⟨ihs, ihn⟩ := ih child
      cases hbn : bestN nb child rest with
      | some mb =>
        have hb : bestN nb node (c :: rest) = some (mb + 1) := by
          rw [bestN_cons, hfc]
          simp [hbn]
        obtain ⟨hmb0, hmbc, hmbmax⟩ := ihs mb hbn
        constructor
        · intro n hn
          rw [hb] at hn
          cases hn
          refine ⟨by omega, (candN_cons_succ hfc mb).mpr hmbc, ?_⟩
          intro m hm hcm
          obtain ⟨k, rfl⟩ : ∃ k, m = k + 1 := ⟨m - 1, by omega⟩
          have hck := (candN_cons_succ hfc k).mp hcm
          by_cases hk0 : 0 < k
          · have := hmbmax k hk0 hck
            omega
          · omega
        · intro hcontra
          rw [hb] at hcontra
          cases hcontra
      | none =>
        have ihn2 := ihn hbn
        cases hcond : child.is_last && (!nb || bheadOk rest) with
        | true =>
          have hb : bestN nb node (c :: rest) = some 1 := by
            rw [bestN_cons, hfc]
            simp [hbn, hcond]
          constructor
          · intro n hn
            rw [hb] at hn
            cases hn
            have hcand : candN nb node (c :: rest) 1 := by
              rw [candN_cons_succ hfc 0]
              refine ⟨by omega, ?_, ?_⟩
              · rw [List.take_zero, containsW_nil]
                exact (Bool.and_eq_true_iff.mp hcond).1
              · intro hnb
                have h2 := (Bool.and_eq_true_iff.mp hcond).2
                rw [hnb] at h2
                simp only [Bool.not_true, Bool.false_or] at h2
                rw [bAt_zero]
                exact h2
            refine ⟨by omega, hcand, ?_⟩
            intro m hm hcm
            obtain ⟨k, rfl⟩ : ∃ k, m = k + 1 := ⟨m - 1, by omega⟩
            have hck := (candN_cons_succ hfc k).mp hcm
            by_cases hk0 : 0 < k
            · exact absurd hck (ihn2 k hk0)
            · omega
          · intro hcontra
            rw [hb] at hcontra
            cases hcontra
        | false =>
          have hb : bestN nb node (c :: rest) = none := by
            rw [bestN_cons, hfc]
            simp [hbn, hcond]
          constructor
          · intro n hn
            rw [hb] at hn
            cases hn
          · intro _ m hm hcm
            obtain ⟨k, rfl⟩ : ∃ k, m = k + 1 := ⟨m - 1, by omega⟩
            have hck := (candN_cons_succ hfc k).mp hcm
            by_cases hk0 : 0 < k
            · exact absurd hck (ihn2 k hk0)
            · have hk : k = 0 := by omega
              subst hk
              obtain ⟨-, hcw, hbd⟩ := hck
              rw [List.take_zero, containsW_nil] at hcw
              rw [bAt_zero] at hbd
              have hcond2 : (child.is_last && (!nb || bheadOk rest)) = true := by
                rw [hcw]
                cases nb with
                | false => rfl
                | true => simp [hbd rfl]
              rw [hcond2] at hcond
              cases hcond

/-! ### Characterization of `match_symbol` -/

/-- The boundary condition at absolute index `j` of the full input: input
ended, or `code[j]` is a boundary character. -/
def boundaryAt (code : List Char) (j : Nat) : Bool :=
  if h : j < code.length then SymbolTrie.is_boundary code[j] else true

/-- `n` characters starting at `start` spell a stored symbol that the walk may
record: nonempty, in bounds, stored in the trie, and (when `nb` is set)
followed by a boundary or the end of input. -/
def goodMatch (t : SymbolTrie) (code : List Char) (start : Nat) (nb : Bool) (n : Nat) : Prop :=
  0 < n ∧ start + n ≤ code.length ∧ t.containsW ((code.drop start).take n) = true ∧
    (nb = true → boundaryAt code (start + n) = true)

instance (t : SymbolTrie) (code : List Char) (start : Nat) (nb : Bool) (n : Nat) :
    Decidable (goodMatch t code start nb n) := by
  unfold goodMatch
  infer_instance

theorem bAt_drop (code : List Char) (start n : Nat) (h : start + n ≤ code.length) :
    bAt (code.drop start) n = boundaryAt code (start + n) := by
  unfold bAt boundaryAt
  by_cases h2 : start + n < code.length
  · rw [dif_pos (by rw [List.length_drop]; omega), dif_pos h2]
    congr 1
    exact List.getElem_drop code
  · rw [dif_neg (by rw [List.length_drop]; omega), dif_neg h2]

theorem goodMatch_iff_candN (t : SymbolTrie) (code : List Char) (start : Nat)
    (nb : Bool) (n : Nat) :
    goodMatch t code start nb n ↔ 0 < n ∧ candN nb t (code.drop start) n := by
  unfold goodMatch candN
  constructor
  · rintro ⟨h0, h1, h2, h3⟩
    refine ⟨h0, by rw [List.length_drop]; omega, h2, ?_⟩
    intro hnb
    rw [bAt_drop code start n h1]
    exact h3 hnb
  · rintro ⟨h0, ⟨h1, h2, h3⟩⟩
    rw [List.length_drop] at h1
    refine ⟨h0, by omega, h2, ?_⟩
    intro hnb
    rw [← bAt_drop code start n (by omega)]
    exact h3 hnb

/-- `match_symbol` in terms of the deepest recordable candidate. -/
theorem match_symbol_eq_bestN (t : SymbolTrie) (code : List Char) (start : Nat) (nb : Bool) :
    t.match_symbol code start nb =
      match bestN nb t (code.drop start) with
      | some n => some (⟨(code.drop start).take n⟩, start + n)
      | none => none := by
  unfold SymbolTrie.match_symbol
  rw [matchGo_eq_bestN]
  cases bestN nb t (code.drop start) with
  | none => rfl
  | some n => simp [data_empty]

/-- Every successful `match_symbol` is the longest recordable candidate. -/
theorem match_symbol_some_spec {t : SymbolTrie} {code : List Char} {start : Nat}
    {nb : Bool} {s : String} {e : Nat}
    (h : t.match_symbol code start nb = some (s, e)) :
    ∃ n, e = start + n ∧ s = ⟨(code.drop start).take n⟩ ∧
      goodMatch t code start nb n ∧ ∀ m, goodMatch t code start nb m → m ≤ n := by
  rw [match_symbol_eq_bestN] at h
  cases hbn : bestN nb t (code.drop start) with
  | none => rw [hbn] at h; cases h
  | some n =>
    rw [hbn] at h
    simp only [Option.some.injEq, Prod.mk.injEq] at h
    obtain ⟨hs, he⟩ := h
    obtain ⟨h0, hcand, hmax⟩ := ((bestN_spec nb (code.drop start) t).1) n hbn
    refine ⟨n, he.symm, hs.symm, ?_, ?_⟩
    · rw [goodMatch_iff_candN]
      exact ⟨h0, hcand⟩
    · intro m hm
      rw [goodMatch_iff_candN] at hm
      exact hmax m hm.1 hm.2

/-- `match_symbol` fails exactly when there is no recordable candidate. -/
theorem match_symbol_none_iff (t : SymbolTrie) (code : List Char) (start : Nat) (nb : Bool) :
    t.match_symbol code start nb = none ↔ ∀ n, ¬goodMatch t code start nb n := by
  rw [match_symbol_eq_bestN]
  cases hbn : bestN nb t (code.drop start) with
  | none =>
    simp only [true_iff]
    intro n hg
    rw [goodMatch_iff_candN] at hg
    exact ((bestN_spec nb (code.drop start) t).2 hbn) n hg.1 hg.2
  | some n =>
    simp only [reduceCtorEq, false_iff, not_forall, not_not]
    obtain ⟨h0, hcand, -⟩ := ((bestN_spec nb (code.drop start) t).1) n hbn
    refine ⟨n, ?_⟩
    rw [goodMatch_iff_candN]
    exact ⟨h0, hcand⟩

/-! ### Membership: the trie stores exactly the vocabulary -/

theorem findChild_setChild_self (c : Char) (t : SymbolTrie) :
    ∀ cs : List (Char × SymbolTrie), findChild c (setChild c t cs) = some t := by
  intro cs
  induction cs with
  | nil => simp [setChild, findChild]
  | cons p rest ih =>
    obtain ⟨k, u⟩ := p
    by_cases hk : k = c
    · subst hk
      simp [setChild, findChild]
    · simp only [setChild, if_neg hk, findChild]
      exact ih

theorem findChild_setChild_ne {c d : Char} (hne : d ≠ c) (t : SymbolTrie) :
    ∀ cs : List (Char × SymbolTrie), findChild d (setChild c t cs) = findChild d cs := by
  intro cs
  induction cs with
  | nil =>
    simp only [setChild, findChild]
    rw [if_neg (fun h => hne h.symm)]
  | cons p rest ih =>
    obtain ⟨k, u⟩ := p
    by_cases hk : k = c
    · subst hk
      simp only [setChild, if_pos rfl, findChild]
      rw [if_neg (fun h => hne h.symm), if_neg (fun h => hne h.symm)]
    · simp only [setChild, if_neg hk, findChild]
      by_cases hkd : k = d
      · rw [if_pos hkd, if_pos hkd]
      · rw [if_neg hkd, if_neg hkd]
        exact ih

theorem containsW_empty_root (w : List Char) :
    (SymbolTrie.mk [] false).containsW w = false := by
  cases w with
  | nil => rfl
  | cons c rest => rfl

/-- `insert` stores exactly the inserted word, on top of what was stored. -/
theorem containsW_insert (s : List Char) :
    ∀ (t : SymbolTrie) (w : List Char),
      (t.insert s).containsW w = true ↔ w = s ∨ t.containsW w = true := by
  induction s with
  | nil =>
    intro t w
    obtain ⟨cs, b⟩ := t
    cases w with
    | nil =>
      simp [SymbolTrie.insert, containsW_nil, SymbolTrie.is_last]
    | cons d w2 =>
      show (SymbolTrie.mk cs true).containsW (d :: w2) = true ↔ _
      cases hfc : findChild d cs with
      | none =>
        rw [containsW_cons_of_none (by simpa [SymbolTrie.children] using hfc),
          containsW_cons_of_none (by simpa [SymbolTrie.children] using hfc)]
        simp
      | some u =>
        rw [containsW_cons_of_child (by simpa [SymbolTrie.children] using hfc),
          containsW_cons_of_child (by simpa [SymbolTrie.children] using hfc)]
        simp
  | cons a s ih =>
    intro t w
    obtain ⟨cs, b⟩ := t
    cases w with
    | nil =>
      show (SymbolTrie.mk _ b).containsW [] = true ↔ _
      rw [containsW_nil, containsW_nil]
      simp [SymbolTrie.is_last]
    | cons d w2 =>
      by_cases hd : d = a
      · subst hd
        have hset : findChild d (SymbolTrie.mk
            (setChild d (((findChild d cs).getD SymbolTrie.new_empty).insert s) cs) b).children =
            some (((findChild d cs).getD SymbolTrie.new_empty).insert s) := by
          show findChild d (setChild d _ cs) = _
          exact findChild_setChild_self d _ cs
        rw [show (SymbolTrie.mk cs b).insert (d :: s) = SymbolTrie.mk
            (setChild d (((findChild d cs).getD SymbolTrie.new_empty).insert s) cs) b from rfl]
        rw [containsW_cons_of_child hset]
        rw [ih (((findChild d cs).getD SymbolTrie.new_empty)) w2]
        cases hfc : findChild d cs with
        | none =>
          rw [containsW_cons_of_none (by simpa [SymbolTrie.children] using hfc)]
          simp [hfc, containsW_empty_root, SymbolTrie.new_empty]
        | some u =>
          rw [containsW_cons_of_child (by simpa [SymbolTrie.children] using hfc)]
          simp [hfc]
      · have hset : findChild d (SymbolTrie.mk
            (setChild a (((findChild a cs).getD SymbolTrie.new_empty).insert s) cs) b).children =
            findChild d cs := by
          show findChild d (setChild a _ cs) = _
          exact findChild_setChild_ne hd _ cs
        rw [show (SymbolTrie.mk cs b).insert (a :: s) = SymbolTrie.mk
            (setChild a (((findChild a cs).getD SymbolTrie.new_empty).insert s) cs) b from rfl]
        cases hfc : findChild d cs with
        | none =>
          rw [containsW_cons_of_none (by simpa [SymbolTrie.children] using (hset.trans hfc)),
            containsW_cons_of_none (by simpa [SymbolTrie.children] using hfc)]
          simp [hd]
        | some u =>
          rw [containsW_cons_of_child (by simpa [SymbolTrie.children] using (hset.trans hfc)),
            containsW_cons_of_child (by simpa [SymbolTrie.children] using hfc)]
          simp [hd]

theorem containsW_foldl (L : List String) :
    ∀ (t : SymbolTrie) (w : List Char),
      ((L.foldl (fun acc s => acc.insert s.data) t).containsW w = true) ↔
        ((∃ s, s ∈ L ∧ w = s.data) ∨ t.containsW w = true) := by
  induction L with
  | nil => simp
  | cons a L ih =>
    intro t w
    rw [List.foldl_cons, ih (t.insert a.data) w, containsW_insert]
    simp only [List.mem_cons]
    constructor
    · rintro (⟨s, hs, rfl⟩ | (rfl | ht))
      · exact Or.inl ⟨s, Or.inr hs, rfl⟩
      · exact Or.inl ⟨a, Or.inl rfl, rfl⟩
      · exact Or.inr ht
    · rintro (⟨s, (rfl | hs), rfl⟩ | ht)
      · exact Or.inr (Or.inl rfl)
      · exact Or.inl ⟨s, hs, rfl⟩
      · exact Or.inr (Or.inr ht)

/-- The trie built by `SymbolTrie::new` stores exactly the vocabulary. -/
theorem containsW_new (V : List String) (w : List Char) :
    ((SymbolTrie.new V).containsW w = true) ↔ ∃ s, s ∈ V ∧ w = s.data := by
  unfold SymbolTrie.new
  rw [containsW_foldl]
  simp [containsW_empty_root]

/-! ### Identifier characters are never boundaries; keyword classification -/

theorem toString_data (c : Char) : (Char.toString c).data = [c] := rfl

theorem identChar_not_boundary {c : Char} (h : identChar c = true) :
    SymbolTrie.is_boundary c = false := by
  by_contra hb
  rw [Bool.not_eq_false] at hb
  unfold SymbolTrie.is_boundary at hb
  rw [Bool.or_eq_true] at hb
  cases hb with
  | inl hw =>
    simp only [Char.isWhitespace, Bool.or_eq_true, decide_eq_true_eq] at hw
    rcases hw with ((rfl | rfl) | rfl) | rfl <;> exact absurd h (by decide)
  | inr hd =>
    have hmem : c.toString ∈ DELIMITERS := List.mem_of_elem_eq_true hd
    simp only [DELIMITERS, List.mem_cons, List.not_mem_nil, or_false] at hmem
    rcases hmem with hs | hs | hs | hs | hs | hs | hs | hs | hs <;>
      (replace hs := congrArg String.data hs
       rw [toString_data] at hs
       simp only [List.cons.injEq, and_true] at hs
       subst hs
       exact absurd h (by decide))

theorem mem_map_data (w : List Char) (L : List String) :
    w ∈ L.map String.data ↔ (⟨w⟩ : String) ∈ L := by
  rw [List.mem_map]
  constructor
  · rintro ⟨s, hs, rfl⟩
    rw [string_eta]
    exact hs
  · intro h
    exact ⟨⟨w⟩, h, rfl⟩

/-- With `require_boundary = true`, a run made of identifier characters matches
the keyword trie exactly when the entire run is a keyword: no proper prefix
can be recorded, because the next run character is never a boundary. -/
theorem keyword_match_iff (value : List Char) (hval : ∀ c ∈ value, identChar c = true) :
    (KEYWORDS_TRIE.match_symbol value 0 true).isSome = true ↔
      (⟨value⟩ : String) ∈ KEYWORDS := by
  rw [← mem_map_data]
  constructor
  · intro hs
    rw [Option.isSome_iff_exists] at hs
    obtain ⟨⟨s, e⟩, hm⟩ := hs
    obtain ⟨n, -, -, ⟨h0, hlen, hcw, hbd⟩, -⟩ := match_symbol_some_spec hm
    simp only [Nat.zero_add, List.drop_zero] at hlen hcw hbd
    have hn : n = value.length := by
      by_contra hne
      have hlt : n < value.length := by omega
      have hb := hbd trivial
      unfold boundaryAt at hb
      rw [dif_pos hlt] at hb
      have hident := hval value[n] (List.getElem_mem _)
      rw [identChar_not_boundary hident] at hb
      cases hb
    subst hn
    rw [List.take_length] at hcw
    unfold KEYWORDS_TRIE at hcw
    rw [containsW_new] at hcw
    obtain ⟨s2, hs2, rfl⟩ := hcw
    exact List.mem_map_of_mem _ hs2
  · intro hmem
    rw [List.mem_map] at hmem
    obtain ⟨s, hs, hdata⟩ := hmem
    have hne : s.data ≠ [] := by
      revert hs
      have : ∀ s2 ∈ KEYWORDS, s2.data ≠ [] := by decide
      exact fun hs => this s hs
    have hgood : goodMatch KEYWORDS_TRIE value 0 true value.length := by
      refine ⟨?_, by omega, ?_, ?_⟩
      · rw [← hdata]
        exact List.length_pos.mpr hne
      · rw [List.drop_zero, List.take_length]
        unfold KEYWORDS_TRIE
        rw [containsW_new]
        exact ⟨s, hs, hdata.symm⟩
      · intro _
        unfold boundaryAt
        rw [dif_neg (by omega)]
    cases hm : KEYWORDS_TRIE.match_symbol value 0 true with
    | none =>
      rw [match_symbol_none_iff] at hm
      exact absurd hgood (hm value.length)
    | some r => rfl

/-- The identifier/keyword scan: capture the maximal identifier-character run,
then classify the whole run against the keyword vocabulary. -/
theorem lex_identifier_general (code : List Char) (pos : Nat) :
    Lexer.lex_identifier_or_keyword ⟨code, pos⟩ =
      ((if (⟨(code.drop pos).takeWhile identChar⟩ : String) ∈ KEYWORDS then
          Token.Keyword ⟨(code.drop pos).takeWhile identChar⟩
        else Token.Identifier ⟨(code.drop pos).takeWhile identChar⟩),
       ⟨code, pos + ((code.drop pos).takeWhile identChar).length⟩) := by
  simp only [Lexer.lex_identifier_or_keyword]
  rw [lex_ident_go_spec code (code.drop pos) pos "" rfl]
  simp only [data_empty, List.nil_append]
  have hval : ∀ c ∈ (code.drop pos).takeWhile identChar, identChar c = true :=
    fun c hc => List.mem_takeWhile_imp hc
  have hiff := keyword_match_iff ((code.drop pos).takeWhile identChar) hval
  by_cases hk : (⟨(code.drop pos).takeWhile identChar⟩ : String) ∈ KEYWORDS
  · rw [if_pos (show (KEYWORDS_TRIE.match_symbol
        (⟨(code.drop pos).takeWhile identChar⟩ : String).data 0 true).isSome = true
        from hiff.mpr hk), if_pos hk]
  · rw [if_neg ?hneg, if_neg hk]
    case hneg =>
      intro hcontra
      exact hk (hiff.mp hcontra)

/-! ### Totality and cursor movement of `next_token` -/

theorem identChar_of_start {c : Char} (h : (c.isAlpha || c = '_' || c = '$') = true) :
    identChar c = true := by
  simp only [identChar, Char.isAlphanum, Bool.or_eq_true, decide_eq_true_eq] at h ⊢
  tauto

theorem getElem?_some_mem {code : List Char} {pos : Nat} {c : Char}
    (hc : code[pos]? = some c) : c ∈ code := by
  have hp : pos < code.length := @current_char_lt ⟨code, pos⟩ _ hc
  rw [List.getElem?_eq_getElem hp] at hc
  have hg : code[pos] = c := by injection hc
  rw [← hg]
  exact List.getElem_mem hp

theorem drop_nil_len {code : List Char} {pos : Nat} (h : code.drop pos = []) :
    code.length ≤ pos := by
  have h2 := congrArg List.length h
  rw [List.length_drop] at h2
  simp only [List.length_nil] at h2
  omega

theorem mk_position (code : List Char) (pos : Nat) : (Lexer.mk code pos).position = pos := rfl

theorem mk_code (code : List Char) (pos : Nat) : (Lexer.mk code pos).code = code := rfl

/-- One `ntGo` step always yields a token, never moves the cursor backwards,
strictly advances it inside the input, and is the identity EndOfInput step at
or past the end. -/
theorem ntGo_spec (code : List Char) :
    ∀ (rest : List Char) (pos : Nat), code.drop pos = rest →
      ∃ t st2, ntGo code pos rest = some (t, st2) ∧ st2.code = code ∧
        pos ≤ st2.position ∧ (pos < code.length → pos < st2.position) ∧
        (code.length ≤ pos → t = Token.EOF ∧ st2 = ⟨code, pos⟩) := by
  intro rest
  induction rest with
  | nil =>
    intro pos h
    exact ⟨Token.EOF, ⟨code, pos⟩, rfl, rfl, Nat.le_refl _,
      fun hlt => absurd (drop_nil_len h) (by omega), fun _ => ⟨rfl, rfl⟩⟩
  | cons c rest ih =>
    intro pos h
    obtain ⟨hc, hrest⟩ := drop_cons_inv h
    have hlt : pos < code.length := @current_char_lt ⟨code, pos⟩ _ hc
    unfold ntGo
    by_cases hw : c.isWhitespace
    · rw [if_pos hw]
      obtain ⟨t, st2, hgo, hcode, hge2, hlt2, hterm⟩ := ih (pos + 1) hrest
      exact ⟨t, st2, hgo, hcode, by omega, fun _ => by omega,
        fun hc2 => absurd hlt (by omega)⟩
    · rw [if_neg hw]
      by_cases hid : (c.isAlpha || c = '_' || c = '$') = true
      · rw [if_pos hid]
        refine ⟨_, _, rfl, rfl, by simp only [mk_position]; omega, fun _ => ?_,
          fun hc2 => absurd hlt (by omega)⟩
        rw [List.takeWhile_cons_of_pos (identChar_of_start hid)]
        simp only [mk_position, List.length_cons]
        omega
      · rw [if_neg hid]
        by_cases hdg : c.isDigit = true
        · rw [if_pos hdg]
          refine ⟨_, _, rfl, rfl, by simp only [mk_position]; omega, fun _ => ?_,
            fun hc2 => absurd hlt (by omega)⟩
          rw [List.takeWhile_cons_of_pos (by simp [hdg])]
          simp only [mk_position, List.length_cons]
          omega
        · rw [if_neg hdg]
          by_cases hqt : (c = '"' || c = '\'') = true
          · rw [if_pos hqt]
            exact ⟨_, _, rfl, rfl, by simp only [mk_position]; omega,
              fun _ => by simp only [mk_position]; omega,
              fun hc2 => absurd hlt (by omega)⟩
          · rw [if_neg hqt]
            cases hop : OPERATORS_TRIE.match_symbol code pos false with
            | some r =>
              obtain ⟨s, e⟩ := r
              obtain ⟨n, he, -, ⟨h0, -, -, -⟩, -⟩ := match_symbol_some_spec hop
              exact ⟨_, _, rfl, rfl, by simp only [mk_position]; omega,
                fun _ => by simp only [mk_position]; omega,
                fun hc2 => absurd hlt (by omega)⟩
            | none =>
              simp only [hop]
              cases hdl : DELIMITERS_TRIE.match_symbol code pos false with
              | some r =>
                obtain ⟨s, e⟩ := r
                obtain ⟨n, he, -, ⟨h0, -, -, -⟩, -⟩ := match_symbol_some_spec hdl
                exact ⟨_, _, rfl, rfl, by simp only [mk_position]; omega,
                  fun _ => by simp only [mk_position]; omega,
                  fun hc2 => absurd hlt (by omega)⟩
              | none =>
                simp only [hdl]
                obtain ⟨t, st2, hgo, hcode, hge2, hlt2, hterm⟩ := ih (pos + 1) hrest
                exact ⟨t, st2, hgo, hcode, by omega, fun _ => by omega,
                  fun hc2 => absurd hlt (by omega)⟩

/-- One `next_token` call: total, cursor never decreases, strict advance below
the end of input, idempotent EndOfInput at or past the end. -/
theorem next_token_spec (st : Lexer) :
    ∃ t st2, st.next_token = some (t, st2) ∧ st2.code = st.code ∧
      st.position ≤ st2.position ∧
      (st.position < st.code.length → st.position < st2.position) ∧
      (st.code.length ≤ st.position → t = Token.EOF ∧ st2 = st) := by
  obtain ⟨code, pos⟩ := st
  rw [next_token_eq_ntGo code (code.drop pos) pos rfl]
  exact ntGo_spec code (code.drop pos) pos rfl

/-! ### The drop law -/

/-- A character outside every vocabulary and every scanner's first-character
class: it is silently dropped by `next_token`. -/
def droppable (c : Char) : Prop :=
  c.isWhitespace = false ∧ c.isAlpha = false ∧ c ≠ '_' ∧ c ≠ '$' ∧
    c.isDigit = false ∧ c ≠ '"' ∧ c ≠ '\'' ∧
    (∀ s ∈ OPERATORS, s.data.head? ≠ some c) ∧
    (∀ s ∈ DELIMITERS, s.data.head? ≠ some c)

instance (c : Char) : Decidable (droppable c) := by
  unfold droppable
  infer_instance

/-- If the current character heads no vocabulary entry, the matcher fails. -/
theorem match_symbol_none_of_nohead {V : List String} {code : List Char} {pos : Nat}
    {c : Char} (hc : code[pos]? = some c)
    (hhead : ∀ s ∈ V, s.data.head? ≠ some c) :
    (SymbolTrie.new V).match_symbol code pos false = none := by
  rw [match_symbol_none_iff]
  intro n hg
  obtain ⟨h0, hlen, hcw, -⟩ := hg
  have hp : pos < code.length := @current_char_lt ⟨code, pos⟩ _ hc
  rw [List.getElem?_eq_getElem hp] at hc
  have hg2 : code[pos] = c := by injection hc
  have hdp : code.drop pos = c :: code.drop (pos + 1) := by
    rw [List.drop_eq_getElem_cons hp, hg2]
  rw [hdp] at hcw
  obtain ⟨k, rfl⟩ : ∃ k, n = k + 1 := ⟨n - 1, by omega⟩
  rw [List.take_succ_cons, containsW_new] at hcw
  obtain ⟨s, hs, hdata⟩ := hcw
  apply hhead s hs
  rw [← hdata]
  rfl

theorem ntGo_droppable (code : List Char) (H : ∀ c ∈ code, droppable c) :
    ∀ (rest : List Char) (pos : Nat), code.drop pos = rest →
      ntGo code pos rest = some (Token.EOF, ⟨code, max pos code.length⟩) := by
  intro rest
  induction rest with
  | nil =>
    intro pos h
    have hle := drop_nil_len h
    have hmax : max pos code.length = pos := by omega
    rw [hmax]
    rfl
  | cons c rest ih =>
    intro pos h
    obtain ⟨hc, hrest⟩ := drop_cons_inv h
    have hlt : pos < code.length := @current_char_lt ⟨code, pos⟩ _ hc
    obtain ⟨hws, hal, hun, hdo, hdg, hq1, hq2, hop, hdl⟩ := H c (getElem?_some_mem hc)
    have hopn : OPERATORS_TRIE.match_symbol code pos false = none :=
      match_symbol_none_of_nohead hc hop
    have hdln : DELIMITERS_TRIE.match_symbol code pos false = none :=
      match_symbol_none_of_nohead hc hdl
    unfold ntGo
    rw [if_neg (by simp [hws]), if_neg (by simp [hal, hun, hdo]),
      if_neg (by simp [hdg]), if_neg (by simp [hq1, hq2])]
    simp only [hopn, hdln]
    rw [ih (pos + 1) hrest]
    have hmax : max (pos + 1) code.length = max pos code.length := by omega
    rw [hmax]

/-- Vocabulary entries of length `n` that occur at `start` are exactly the
recordable candidates of the boundary-free walk. -/
theorem goodMatch_entry_iff (V : List String) (code : List Char) (start n : Nat) :
    goodMatch (SymbolTrie.new V) code start false n ↔
      ∃ s : String, s ∈ V ∧ s.data ≠ [] ∧ s.data.length = n ∧
        (code.drop start).take s.data.length = s.data := by
  constructor
  · rintro ⟨h0, hlen, hcw, -⟩
    rw [containsW_new] at hcw
    obtain ⟨s, hs, hdata⟩ := hcw
    have hlt : ((code.drop start).take n).length = n := by
      rw [List.length_take, List.length_drop]
      omega
    have hsl : s.data.length = n := by
      rw [← hdata, hlt]
    refine ⟨s, hs, ?_, hsl, ?_⟩
    · intro hnil
      rw [hnil] at hsl
      simp only [List.length_nil] at hsl
      omega
    · rw [hsl, ← hdata]
  · rintro ⟨s, hs, hne, hlen, hpre⟩
    subst hlen
    have hmin := congrArg List.length hpre
    rw [List.length_take, List.length_drop] at hmin
    have h0 : 0 < s.data.length := List.length_pos.mpr hne
    refine ⟨h0, by omega, ?_, fun hfalse => absurd hfalse (by decide)⟩
    rw [hpre, containsW_new]
    exact ⟨s, hs, rfl⟩

/-! ### The claims -/

/-- Claim C1: longest-match law.  For every input and position, if a nonempty
vocabulary entry is a prefix of the input there, the boundary-free
`match_symbol` of the trie built from that vocabulary returns an entry that is
a prefix there, together with its end position, and no prefix entry is longer;
in particular the operator matcher resolves `===` as one symbol of length 3 and
resolves `...` fully, while the delimiter matcher consumes only `.` (one
character) on input `...`. -/
theorem longest_match_law :
    (∀ (V : List String) (code : List Char) (start : Nat) (s : String),
      s ∈ V → s.data ≠ [] → (code.drop start).take s.data.length = s.data →
      ∃ (t : String) (e : Nat),
        (SymbolTrie.new V).match_symbol code start false = some (t, e) ∧
        t ∈ V ∧ (code.drop start).take t.data.length = t.data ∧
        e = start + t.data.length ∧
        ∀ s2 : String, s2 ∈ V → (code.drop start).take s2.data.length = s2.data →
          s2.data.length ≤ t.data.length) ∧
    OPERATORS_TRIE.match_symbol "===".data 0 false = some ("===", 3) ∧
    OPERATORS_TRIE.match_symbol "...".data 0 false = some ("...", 3) ∧
    DELIMITERS_TRIE.match_symbol "...".data 0 false = some (".", 1) := by
  refine ⟨?_, by decide, by decide, by decide⟩
  intro V code start s hs hne hpre
  have hgm : goodMatch (SymbolTrie.new V) code start false s.data.length := by
    rw [goodMatch_entry_iff]
    exact ⟨s, hs, hne, rfl, hpre⟩
  cases hm : (SymbolTrie.new V).match_symbol code start false with
  | none =>
    rw [match_symbol_none_iff] at hm
    exact absurd hgm (hm _)
  | some r =>
    obtain ⟨t, e⟩ := r
    obtain ⟨n, he, hts, hgn, hmax⟩ := match_symbol_some_spec hm
    rw [goodMatch_entry_iff] at hgn
    obtain ⟨s2, hs2, hne2, hlen2, hpre2⟩ := hgn
    rw [hlen2] at hpre2
    have hteq : t = s2 := by
      rw [hts, hpre2]
    subst hteq
    refine ⟨t, e, rfl, hs2, ?_, ?_, ?_⟩
    · rw [hlen2]
      exact hpre2
    · rw [hlen2]
      exact he
    · intro s3 hs3 hpre3
      by_cases hne3 : s3.data = []
      · rw [hne3]
        exact Nat.zero_le _
      · have hg3 : goodMatch (SymbolTrie.new V) code start false s3.data.length := by
          rw [goodMatch_entry_iff]
          exact ⟨s3, hs3, hne3, rfl, hpre3⟩
        have := hmax _ hg3
        omega

/-- Claim C2: keyword/identifier boundary law.  The identifier-or-keyword scan
first consumes the maximal run of identifier characters
(letter, digit, underscore, `$`), then classifies the entire captured run:
Keyword exactly when the whole run is a keyword, Identifier otherwise; the
boundary-checked keyword match on a run of identifier characters succeeds
exactly on full keywords; and `letVar` lexes as one Identifier. -/
theorem keyword_boundary_law :
    (∀ (code : List Char) (pos : Nat),
      Lexer.lex_identifier_or_keyword ⟨code, pos⟩ =
        ((if (⟨(code.drop pos).takeWhile identChar⟩ : String) ∈ KEYWORDS then
            Token.Keyword ⟨(code.drop pos).takeWhile identChar⟩
          else Token.Identifier ⟨(code.drop pos).takeWhile identChar⟩),
         ⟨code, pos + ((code.drop pos).takeWhile identChar).length⟩)) ∧
    (∀ value : List Char, (∀ c ∈ value, identChar c = true) →
      ((KEYWORDS_TRIE.match_symbol value 0 true).isSome = true ↔
        (⟨value⟩ : String) ∈ KEYWORDS)) ∧
    run_tokens 2 (Lexer.new "letVar".data) = some [Token.Identifier "letVar", Token.EOF] := by
  refine ⟨lex_identifier_general, keyword_match_iff, ?_⟩
  rw [run_tokens_eq]
  decide

/-- Claim C3: boundary-aware candidate recording.  `goodMatch` is exactly the
recording condition of the walk: a complete-symbol node at depth `n` is a
candidate iff `needs_boundary` is false, or the following character is a
boundary (whitespace or a delimiter), or the input has ended.  A successful
`match_symbol` returns the longest recorded candidate (its text being the
consumed characters), and it returns `none` iff no candidate was ever
recordable. -/
theorem boundary_candidate_law :
    ∀ (t : SymbolTrie) (code : List Char) (start : Nat) (nb : Bool),
      (∀ (s : String) (e : Nat), t.match_symbol code start nb = some (s, e) →
        goodMatch t code start nb (e - start) ∧
        s.data = (code.drop start).take (e - start) ∧
        ∀ m, goodMatch t code start nb m → m ≤ e - start) ∧
      (t.match_symbol code start nb = none ↔ ∀ n, ¬goodMatch t code start nb n) := by
  intro t code start nb
  constructor
  · intro s e hm
    obtain ⟨n, he, hts, hgn, hmax⟩ := match_symbol_some_spec hm
    have hen : e - start = n := by omega
    rw [hen]
    refine ⟨hgn, ?_, hmax⟩
    rw [hts]
  · exact match_symbol_none_iff t code start nb

/-- Claim C4: monotonic cursor and terminal idempotence.  Every `next_token`
call returns exactly one token; the cursor never decreases, strictly increases
while it is below the end of input, and at or past the end the call returns
EndOfInput leaving the state unchanged (hence every subsequent call returns
EndOfInput again). -/
theorem cursor_monotonic_law :
    ∀ st : Lexer, ∃ (t : Token) (st2 : Lexer), st.next_token = some (t, st2) ∧
      st2.code = st.code ∧ st.position ≤ st2.position ∧
      (st.position < st.code.length → st.position < st2.position) ∧
      (st.code.length ≤ st.position → t = Token.EOF ∧ st2 = st) :=
  next_token_spec

/-- Claim C5: full-scenario token stream for
`let x = 42; if (x > 10) { x += 5; }`, together with the dispatch order of the
symbol scan: the operator matcher is tried first without boundary requirement,
and the delimiter matcher only when the operator matcher fails. -/
theorem full_scenario_law :
    run_tokens 18 (Lexer.new "let x = 42; if (x > 10) \x7b x += 5; \x7d".data) =
      some [Token.Keyword "let", Token.Identifier "x", Token.Operator "=",
        Token.Number "42", Token.Delimiter ";", Token.Keyword "if",
        Token.Delimiter "(", Token.Identifier "x", Token.Operator ">",
        Token.Number "10", Token.Delimiter ")", Token.Delimiter "\x7b",
        Token.Identifier "x", Token.Operator "+=", Token.Number "5",
        Token.Delimiter ";", Token.Delimiter "\x7d", Token.EOF] ∧
    (∀ (st : Lexer) (s : String) (e : Nat),
      OPERATORS_TRIE.match_symbol st.code st.position false = some (s, e) →
      st.lex_operator_or_delimiter =
        some (Token.Operator s, advance_times st (e - st.position))) ∧
    (∀ st : Lexer, OPERATORS_TRIE.match_symbol st.code st.position false = none →
      ∀ (s : String) (e : Nat),
        DELIMITERS_TRIE.match_symbol st.code st.position false = some (s, e) →
        st.lex_operator_or_delimiter =
          some (Token.Delimiter s, advance_times st (e - st.position))) := by
  refine ⟨?_, ?_, ?_⟩
  · rw [run_tokens_eq]
    decide
  · intro st s e h
    simp [Lexer.lex_operator_or_delimiter, h]
  · intro st hop s e h
    simp [Lexer.lex_operator_or_delimiter, hop, h]

/-- Claim C6: string scan semantics.  When the scan starts on a quote
character, it produces exactly the value and consumption described by
`scanStr`: characters are consumed until the same quote character (which
closes the string) or the end of input (yielding the truncated value with no
error); a backslash maps `n`, `t`, `\`, `"`, `'` to newline, tab, backslash,
double quote, single quote, and any other character to itself.  The scenario
`"hello" 'world' "multi-line\nstring"`, a double quote inside a single-quoted
string (`'a"b'` stays one literal), and an unterminated `"abc` behave
accordingly. -/
theorem string_scan_law :
    (∀ (q : Char) (st : Lexer), st.current_char = some q →
      st.lex_string = some
        (Token.StringLiteral ⟨(scanStr q (st.code.drop (st.position + 1))).1⟩,
         ⟨st.code, st.position + 1 + (scanStr q (st.code.drop (st.position + 1))).2⟩)) ∧
    escape_char 'n' = '\n' ∧ escape_char 't' = '\t' ∧ escape_char '\\' = '\\' ∧
    escape_char '"' = '"' ∧ escape_char '\'' = '\'' ∧
    (∀ c : Char, c ≠ 'n' → c ≠ 't' → c ≠ '\\' → c ≠ '"' → c ≠ '\'' →
      escape_char c = c) ∧
    run_tokens 4 (Lexer.new "\"hello\" 'world' \"multi-line\\nstring\"".data) =
      some [Token.StringLiteral "hello", Token.StringLiteral "world",
        Token.StringLiteral "multi-line\nstring", Token.EOF] ∧
    run_tokens 2 (Lexer.new "'a\"b'".data) =
      some [Token.StringLiteral "a\"b", Token.EOF] ∧
    run_tokens 2 (Lexer.new "\"abc".data) =
      some [Token.StringLiteral "abc", Token.EOF] := by
  refine ⟨?_, rfl, rfl, rfl, rfl, rfl, ?_, ?_, ?_, ?_⟩
  · intro q st h
    obtain ⟨code, pos⟩ := st
    simp only [Lexer.lex_string]
    rw [h]
    have hspec := lex_string_go_spec code q (code.drop (pos + 1)) (pos + 1) "" rfl
    simp only [Lexer.advance] at hspec ⊢
    rw [hspec]
    simp [data_empty]
  · intro c h1 h2 h3 h4 h5
    simp [escape_char, h1, h2, h3, h4, h5]
  · rw [run_tokens_eq]
    decide
  · rw [run_tokens_eq]
    decide
  · rw [run_tokens_eq]
    decide

/-- Claim C7: permissive number scan.  The number scan consumes exactly the
maximal contiguous run of digits and `.` characters and returns a Number token
carrying that run's text, with no numeric validation; `1..2` lexes as a single
Number token with text `1..2`. -/
theorem number_scan_law :
    (∀ (code : List Char) (pos : Nat),
      Lexer.lex_number ⟨code, pos⟩ =
        (Token.Number ⟨(code.drop pos).takeWhile (fun c => c.isDigit || c = '.')⟩,
         ⟨code, pos + ((code.drop pos).takeWhile (fun c => c.isDigit || c = '.')).length⟩)) ∧
    run_tokens 2 (Lexer.new "1..2".data) = some [Token.Number "1..2", Token.EOF] := by
  constructor
  · intro code pos
    simp only [Lexer.lex_number]
    rw [lex_number_go_spec code (code.drop pos) pos "" rfl]
    simp [data_empty]
  · rw [run_tokens_eq]
    decide

/-- Claim C8: drop law.  On an input made only of characters that are not
whitespace, not letters/underscore/`$`, not digits, not quotes, and head no
operator or delimiter entry, every `next_token` call silently skips to the end
of input and returns EndOfInput — no error is ever surfaced; in particular
`@ # ^ ~ `` | ? \` yields only EndOfInput. -/
theorem drop_law :
    (∀ code : List Char, (∀ c ∈ code, droppable c) →
      ∀ pos : Nat, Lexer.next_token ⟨code, pos⟩ =
        some (Token.EOF, ⟨code, max pos code.length⟩)) ∧
    run_tokens 2 (Lexer.new "@ # ^ ~ \x60 | ? \\".data) =
      some [Token.EOF, Token.EOF] := by
  constructor
  · intro code H pos
    rw [next_token_eq_ntGo code (code.drop pos) pos rfl]
    exact ntGo_droppable code H (code.drop pos) pos rfl
  · rw [run_tokens_eq]
    decide

/-- Claim C9: `next_token` is total — it returns a token from every state, and
in particular the `unwrap()` at the start of the string scan cannot panic,
because the string scan is reached only with a current character present. -/
theorem next_token_total :
    (∀ st : Lexer, (st.next_token).isSome = true) ∧
    (∀ (st : Lexer) (c : Char), st.current_char = some c →
      (st.lex_string).isSome = true) := by
  constructor
  · intro st
    obtain ⟨t, st2, h, -⟩ := next_token_spec st
    rw [h]
    rfl
  · intro st c h
    simp [Lexer.lex_string, h]

/-- Claim C10: `match_symbol` postcondition.  A successful match lies strictly
within bounds, returns exactly the consumed span of the input, and its text is
a vocabulary entry; if no entry (nonempty, prefix at `start`, and boundary-
admissible when required) exists, the result is `none`. -/
theorem match_symbol_postcondition :
    ∀ (V : List String) (code : List Char) (start : Nat) (b : Bool),
      (∀ (s : String) (e : Nat),
        (SymbolTrie.new V).match_symbol code start b = some (s, e) →
          start < e ∧ e ≤ code.length ∧
          s.data = (code.drop start).take (e - start) ∧
          s.data.length = e - start ∧ s.data ∈ V.map String.data) ∧
      ((∀ s : String, s ∈ V →
          ¬(s.data ≠ [] ∧ (code.drop start).take s.data.length = s.data ∧
            (b = true → boundaryAt code (start + s.data.length) = true))) →
        (SymbolTrie.new V).match_symbol code start b = none) := by
  intro V code start b
  constructor
  · intro s e hm
    obtain ⟨n, he, hts, ⟨h0, hlen, hcw, -⟩, -⟩ := match_symbol_some_spec hm
    have hen : e - start = n := by omega
    have hdl : s.data = (code.drop start).take n := by rw [hts]
    have htl : ((code.drop start).take n).length = n := by
      rw [List.length_take, List.length_drop]
      omega
    refine ⟨by omega, by omega, by rw [hen]; exact hdl, by rw [hen, hdl, htl], ?_⟩
    rw [hdl]
    rw [containsW_new] at hcw
    obtain ⟨s2, hs2, hdata⟩ := hcw
    rw [hdata]
    exact List.mem_map_of_mem _ hs2
  · intro H
    cases hm : (SymbolTrie.new V).match_symbol code start b with
    | none => rfl
    | some r =>
      obtain ⟨s, e⟩ := r
      obtain ⟨n, he, hts, ⟨h0, hlen, hcw, hbd⟩, -⟩ := match_symbol_some_spec hm
      have htl : ((code.drop start).take n).length = n := by
        rw [List.length_take, List.length_drop]
        omega
      rw [containsW_new] at hcw
      obtain ⟨s2, hs2, hdata⟩ := hcw
      have hsl : s2.data.length = n := by rw [← hdata, htl]
      exfalso
      apply H s2 hs2
      refine ⟨?_, ?_, ?_⟩
      · intro hnil
        rw [hnil] at hsl
        simp only [List.length_nil] at hsl
        omega
      · rw [hsl, ← hdata]
      · intro hb
        rw [hsl]
        exact hbd hb

end Rujs
